import Mathlib

/-!
Verification development for the cppconnections single-header library
(src/cppconnections.hpp): a fixed-capacity signal/slot callback system.

The shallow embedding models:
  - `connection` (struct connection): connected/once flags, callback
    function pointer (an `Option Cb`, `none` standing for nullptr) and an
    opaque context pointer (a `Nat` address value);
  - `signal` (class signal): the `active` flag and the fixed array
    `connections[CPP_CONNECTIONS_MAX_CONNECTIONS]`, modelled as a list in
    index order (the constructor produces length 128 and every operation
    preserves length);
  - every member function as a pure function on these states.  `fire`
    additionally returns the trace of callback invocations, each recorded
    as an `event` carrying the slot index, the dispatched (non-null)
    callback pointer, the context passed as first argument, and the fired
    arguments.
-/

namespace connections

/-- Value of the CPP_CONNECTIONS_MAX_CONNECTIONS macro (default 128). -/
def CPP_CONNECTIONS_MAX_CONNECTIONS : Nat := 128

/-- One registered connection slot (struct connection).  The callback
pointer type `Cb` is a parameter; `none` models a null function pointer.
Context pointers are modelled as natural-number addresses. -/
structure connection (Cb : Type) where
  connected : Bool
  once : Bool
  callback : Option Cb
  context : Nat
deriving DecidableEq

/-- connection::disconnect — sets connected = false, touching nothing else. -/
def connection.disconnect {Cb : Type} (c : connection Cb) : connection Cb :=
  { c with connected := false }

/-- One callback invocation performed by fire: the slot index it came
from, the (non-null) function pointer called, the context passed as the
first argument, and the fired arguments. -/
structure event (Cb : Type) (Args : Type) where
  idx : Nat
  cb : Cb
  ctx : Nat
  args : Args
deriving DecidableEq

/-- Signal state (class signal): the suspend flag and the slot array in
index order. -/
structure signal (Cb : Type) where
  active : Bool
  connections : List (connection Cb)
deriving DecidableEq

/-- The signal constructor: marks every slot of the (arbitrary, garbage)
initial array disconnected and starts active.  `g` is the indeterminate
initial content of the member array; the constructor only calls
disconnect() on each slot. -/
def signal.init {Cb : Type} (g : List (connection Cb)) : signal Cb :=
  { active := true, connections := g.map connection.disconnect }

/-- The body of signal::connect / signal::once: scan for the first slot
with connected == false, populate it (connected, once := o, callback,
context) and return its index; return none when every slot is occupied. -/
def connectSlots {Cb : Type} (f : Option Cb) (x : Nat) (o : Bool) :
    List (connection Cb) → List (connection Cb) × Option Nat
  | [] => ([], none)
  | c :: rest =>
    if c.connected then
      let r := connectSlots f x o rest
      (c :: r.1, r.2.map (· + 1))
    else
      ({ connected := true, once := o, callback := f, context := x } :: rest, some 0)

/-- signal::connect — persistent registration (once := false).  Returns
the new state and the index of the populated slot (the returned pointer),
or none when the signal is full. -/
def signal.connect {Cb : Type} (s : signal Cb) (f : Option Cb) (x : Nat) :
    signal Cb × Option Nat :=
  let r := connectSlots f x false s.connections
  ({ s with connections := r.1 }, r.2)

/-- signal::once — one-shot registration (once := true). -/
def signal.once {Cb : Type} (s : signal Cb) (f : Option Cb) (x : Nat) :
    signal Cb × Option Nat :=
  let r := connectSlots f x true s.connections
  ({ s with connections := r.1 }, r.2)

/-- signal::disconnect_all — disconnect every connected slot. -/
def signal.disconnect_all {Cb : Type} (s : signal Cb) : signal Cb :=
  { s with connections :=
      s.connections.map (fun c => if c.connected then c.disconnect else c) }

/-- signal::disconnect_by_callback — disconnect every connected slot whose
callback pointer equals the argument (pointer equality). -/
def signal.disconnect_by_callback {Cb : Type} [DecidableEq Cb]
    (s : signal Cb) (f : Option Cb) : signal Cb :=
  let step := fun c : connection Cb =>
    if c.connected ∧ c.callback = f then c.disconnect else c
  { s with connections := s.connections.map step }

/-- signal::disconnect_by_context — disconnect every connected slot whose
context pointer equals the argument. -/
def signal.disconnect_by_context {Cb : Type} (s : signal Cb) (x : Nat) :
    signal Cb :=
  let step := fun c : connection Cb =>
    if c.connected ∧ c.context = x then c.disconnect else c
  { s with connections := s.connections.map step }

/-- signal::suspend — active := false. -/
def signal.suspend {Cb : Type} (s : signal Cb) : signal Cb :=
  { s with active := false }

/-- signal::resume — active := true. -/
def signal.resume {Cb : Type} (s : signal Cb) : signal Cb :=
  { s with active := true }

/-- signal::max_connections — the fixed capacity. -/
def signal.max_connections {Cb : Type} (_ : signal Cb) : Nat :=
  CPP_CONNECTIONS_MAX_CONNECTIONS

/-- signal::connection_count — number of slots with connected == true. -/
def signal.connection_count {Cb : Type} (s : signal Cb) : Nat :=
  s.connections.countP (fun c => c.connected)

/-- Body of the fire loop on the slot list: a slot is dispatched when
connected && callback (non-null); a dispatched slot with once == true is
disconnected immediately after its invocation.  Returns the updated slots
and the invocation trace; the events of the tail are re-indexed by +1. -/
def fireSlots {Cb : Type} {Args : Type} (a : Args) :
    List (connection Cb) → List (connection Cb) × List (event Cb Args)
  | [] => ([], [])
  | c :: rest =>
    let r := fireSlots a rest
    if c.connected then
      match c.callback with
      | some f =>
        ((if c.once then c.disconnect else c) :: r.1,
         ⟨0, f, c.context, a⟩ :: r.2.map (fun e => { e with idx := e.idx + 1 }))
      | none => (c :: r.1, r.2.map (fun e => { e with idx := e.idx + 1 }))
    else
      (c :: r.1, r.2.map (fun e => { e with idx := e.idx + 1 }))

/-- signal::fire — if !active, return immediately; otherwise run the slot
scan, returning the new state and the invocation trace. -/
def signal.fire {Cb : Type} {Args : Type} (s : signal Cb) (a : Args) :
    signal Cb × List (event Cb Args) :=
  if s.active then
    let r := fireSlots a s.connections
    ({ s with connections := r.1 }, r.2)
  else
    (s, [])

/-- The per-slot state effect of one fire pass: a dispatched one-shot slot
(connected, non-null callback, once) is disconnected; every other slot is
untouched. -/
def fireStep {Cb : Type} (c : connection Cb) : connection Cb :=
  if c.connected && c.callback.isSome && c.once then c.disconnect else c

/-- Slots paired with their indices starting at n (the enumeration of the
array the fire loop walks). -/
def withIdx {α : Type} : Nat → List α → List (Nat × α)
  | _, [] => []
  | n, c :: rest => (n, c) :: withIdx (n + 1) rest

/-- The event a fire pass emits for one indexed slot: an invocation when
the slot is connected and its callback non-null, nothing otherwise. -/
def slotEvent {Cb : Type} {Args : Type} (a : Args) (p : Nat × connection Cb) :
    Option (event Cb Args) :=
  if p.2.connected then p.2.callback.map (fun f => ⟨p.1, f, p.2.context, a⟩)
  else none

/-- The trace the fire loop produces when the slot at the head of the list
has array index n: one event per connected slot with non-null callback, in
index order. -/
def fireTrace {Cb : Type} {Args : Type} (a : Args) :
    Nat → List (connection Cb) → List (event Cb Args)
  | _, [] => []
  | n, c :: rest =>
    if c.connected then
      match c.callback with
      | some f => ⟨n, f, c.context, a⟩ :: fireTrace a (n + 1) rest
      | none => fireTrace a (n + 1) rest
    else
      fireTrace a (n + 1) rest

theorem fireSlots_fst {Cb Args : Type} (a : Args) (l : List (connection Cb)) :
    (fireSlots a l).1 = l.map fireStep := by
  induction l with
  | nil => rfl
  | cons c rest ih =>
    simp only [fireSlots, List.map_cons]
    cases hc : c.connected with
    | false =>
      simp only [hc, Bool.false_eq_true, if_false, fireStep, Bool.false_and,
        Bool.and_eq_true, and_false]
      simp [fireStep, hc, ih]
    | true =>
      cases hcb : c.callback with
      | some f =>
        simp only [hc, if_true]
        simp [fireStep, hc, hcb, ih]
      | none =>
        simp only [hc, if_true, hcb]
        simp [fireStep, hc, hcb, ih]

theorem fireTrace_map_bump {Cb Args : Type} (a : Args) (n : Nat)
    (l : List (connection Cb)) :
    (fireTrace a n l).map (fun e => { e with idx := e.idx + 1 }) =
      fireTrace a (n + 1) l := by
  induction l generalizing n with
  | nil => rfl
  | cons c rest ih =>
    cases hc : c.connected with
    | false => simp [fireTrace, hc, ih]
    | true =>
      cases hcb : c.callback with
      | some f => simp [fireTrace, hc, hcb, ih]
      | none => simp [fireTrace, hc, hcb, ih]

theorem fireSlots_snd {Cb Args : Type} (a : Args) (l : List (connection Cb)) :
    (fireSlots a l).2 = fireTrace a 0 l := by
  induction l with
  | nil => rfl
  | cons c rest ih =>
    cases hc : c.connected with
    | false => simp [fireSlots, fireTrace, hc, ih, fireTrace_map_bump]
    | true =>
      cases hcb : c.callback with
      | some f => simp [fireSlots, fireTrace, hc, hcb, ih, fireTrace_map_bump]
      | none => simp [fireSlots, fireTrace, hc, hcb, ih, fireTrace_map_bump]

theorem fireTrace_eq_filterMap {Cb Args : Type} (a : Args) (n : Nat)
    (l : List (connection Cb)) :
    fireTrace a n l = (withIdx n l).filterMap (slotEvent a) := by
  induction l generalizing n with
  | nil => rfl
  | cons c rest ih =>
    cases hc : c.connected with
    | false => simp [fireTrace, withIdx, slotEvent, hc, ih]
    | true =>
      cases hcb : c.callback with
      | some f => simp [fireTrace, withIdx, slotEvent, hc, hcb, ih]
      | none => simp [fireTrace, withIdx, slotEvent, hc, hcb, ih]

theorem mem_fireTrace_le {Cb Args : Type} {a : Args} {n : Nat}
    {l : List (connection Cb)} {e : event Cb Args}
    (he : e ∈ fireTrace a n l) : n ≤ e.idx := by
  induction l generalizing n with
  | nil => cases he
  | cons c rest ih =>
    cases hc : c.connected with
    | false =>
      rw [fireTrace, hc] at he
      simp only [Bool.false_eq_true, if_false] at he
      exact Nat.le_of_succ_le (ih he)
    | true =>
      rw [fireTrace, hc] at he
      simp only [if_true] at he
      cases hcb : c.callback with
      | some f =>
        rw [hcb] at he
        rcases List.mem_cons.mp he with h | h
        · subst h; exact Nat.le_refl n
        · exact Nat.le_of_succ_le (ih h)
      | none =>
        rw [hcb] at he
        exact Nat.le_of_succ_le (ih he)

theorem fireTrace_pairwise {Cb Args : Type} (a : Args) (n : Nat)
    (l : List (connection Cb)) :
    (fireTrace a n l).Pairwise (fun e₁ e₂ => e₁.idx < e₂.idx) := by
  induction l generalizing n with
  | nil => exact List.Pairwise.nil
  | cons c rest ih =>
    cases hc : c.connected with
    | false => rw [fireTrace, hc]; simpa using ih (n + 1)
    | true =>
      rw [fireTrace, hc]
      simp only [if_true]
      cases hcb : c.callback with
      | some f =>
        refine List.Pairwise.cons ?_ (ih (n + 1))
        intro e he
        exact Nat.lt_of_lt_of_le (Nat.lt_succ_self n) (mem_fireTrace_le he)
      | none => exact ih (n + 1)

theorem fireTrace_countP_idx {Cb Args : Type} (a : Args)
    (l : List (connection Cb)) (n j : Nat) :
    (fireTrace a n l).countP (fun e => e.idx == n + j) =
      (match l.get? j with
       | some c => if c.connected && c.callback.isSome then 1 else 0
       | none => 0) := by
  induction l generalizing n j with
  | nil => simp [fireTrace, List.get?]
  | cons c rest ih =>
    cases j with
    | zero =>
      have hrest : (fireTrace a (n + 1) rest).countP (fun e => e.idx == n + 0) = 0 := by
        rw [List.countP_eq_zero]
        intro e he
        have := mem_fireTrace_le he
        simp only [beq_iff_eq]
        omega
      cases hc : c.connected with
      | false =>
        rw [fireTrace, hc]
        simp only [Bool.false_eq_true, if_false]
        rw [hrest]
        simp [List.get?, hc]
      | true =>
        cases hcb : c.callback with
        | some f =>
          rw [fireTrace, hc]
          simp only [if_true, hcb, List.countP_cons]
          rw [hrest]
          simp [List.get?, hc, hcb]
        | none =>
          rw [fireTrace, hc]
          simp only [if_true, hcb]
          rw [hrest]
          simp [List.get?, hc, hcb]
    | succ j' =>
      have hshift : n + (j' + 1) = (n + 1) + j' := by omega
      cases hc : c.connected with
      | false =>
        rw [fireTrace, hc]
        simp only [Bool.false_eq_true, if_false]
        rw [hshift, ih]
        simp [List.get?]
      | true =>
        cases hcb : c.callback with
        | some f =>
          rw [fireTrace, hc]
          simp only [if_true, hcb, List.countP_cons]
          have hne : ((⟨n, f, c.context, a⟩ : event Cb Args).idx == n + (j' + 1)) = false := by
            have hproj : (⟨n, f, c.context, a⟩ : event Cb Args).idx = n := rfl
            rw [hproj]
            simp only [beq_eq_false_iff_ne]
            omega
          rw [hne, hshift, ih]
          simp [List.get?]
        | none =>
          rw [fireTrace, hc]
          simp only [if_true, hcb]
          rw [hshift, ih]
          simp [List.get?]

theorem mem_fireTrace_of_slot {Cb Args : Type} (a : Args)
    {l : List (connection Cb)} {j : Nat} {c : connection Cb} {f : Cb}
    (hj : l.get? j = some c) (hc : c.connected = true)
    (hf : c.callback = some f) (n : Nat) :
    (⟨n + j, f, c.context, a⟩ : event Cb Args) ∈ fireTrace a n l := by
  induction l generalizing n j with
  | nil => cases hj
  | cons d rest ih =>
    cases j with
    | zero =>
      simp only [List.get?] at hj
      cases hj
      rw [fireTrace, hc, hf]
      simp
    | succ j' =>
      simp only [List.get?] at hj
      have hmem := ih hj (n + 1)
      have hshift : (n + 1) + j' = n + (j' + 1) := by omega
      rw [hshift] at hmem
      cases hd : d.connected with
      | false => rw [fireTrace, hd]; simpa using hmem
      | true =>
        rw [fireTrace, hd]
        simp only [if_true]
        cases hdb : d.callback with
        | some g => exact List.mem_cons_of_mem _ hmem
        | none => exact hmem

theorem mem_fireTrace_elim {Cb Args : Type} {a : Args} {n : Nat}
    {l : List (connection Cb)} {e : event Cb Args}
    (he : e ∈ fireTrace a n l) :
    ∃ j c, l.get? j = some c ∧ e.idx = n + j ∧ c.connected = true ∧
      c.callback = some e.cb ∧ c.context = e.ctx ∧ e.args = a := by
  induction l generalizing n with
  | nil => cases he
  | cons c rest ih =>
    cases hc : c.connected with
    | false =>
      rw [fireTrace, hc] at he
      simp only [Bool.false_eq_true, if_false] at he
      obtain ⟨j, d, hj, hidx, h1, h2, h3, h4⟩ := ih he
      exact ⟨j + 1, d, by simpa [List.get?] using hj, by omega, h1, h2, h3, h4⟩
    | true =>
      rw [fireTrace, hc] at he
      simp only [if_true] at he
      cases hcb : c.callback with
      | some f =>
        rw [hcb] at he
        rcases List.mem_cons.mp he with h | h
        · subst h
          exact ⟨0, c, rfl, rfl, hc, hcb, rfl, rfl⟩
        · obtain ⟨j, d, hj, hidx, h1, h2, h3, h4⟩ := ih h
          exact ⟨j + 1, d, by simpa [List.get?] using hj, by omega, h1, h2, h3, h4⟩
      | none =>
        rw [hcb] at he
        obtain ⟨j, d, hj, hidx, h1, h2, h3, h4⟩ := ih he
        exact ⟨j + 1, d, by simpa [List.get?] using hj, by omega, h1, h2, h3, h4⟩

theorem get?_set_self {α : Type} :
    ∀ (l : List α) (i : Nat) (v : α), i < l.length → (l.set i v).get? i = some v := by
  intro l
  induction l with
  | nil => intro i v h; cases h
  | cons c rest ih =>
    intro i v h
    cases i with
    | zero => rfl
    | succ i' => exact ih i' v (Nat.lt_of_succ_lt_succ h)

theorem get?_set_ne {α : Type} :
    ∀ (l : List α) (i : Nat) (v : α) (j : Nat), j ≠ i →
      (l.set i v).get? j = l.get? j := by
  intro l
  induction l with
  | nil => intro i v j _; cases i <;> rfl
  | cons c rest ih =>
    intro i v j hne
    cases i with
    | zero =>
      cases j with
      | zero => exact absurd rfl hne
      | succ j' => rfl
    | succ i' =>
      cases j with
      | zero => rfl
      | succ j' => exact ih i' v j' (fun h => hne (congrArg Nat.succ h))

theorem connectSlots_length {Cb : Type} (f : Option Cb) (x : Nat) (o : Bool)
    (l : List (connection Cb)) : (connectSlots f x o l).1.length = l.length := by
  induction l with
  | nil => rfl
  | cons c rest ih =>
    cases hc : c.connected with
    | false => simp [connectSlots, hc]
    | true => simp [connectSlots, hc, ih]

theorem connectSlots_full {Cb : Type} (f : Option Cb) (x : Nat) (o : Bool)
    {l : List (connection Cb)} (h : ∀ c ∈ l, c.connected = true) :
    connectSlots f x o l = (l, none) := by
  induction l with
  | nil => rfl
  | cons c rest ih =>
    have hc : c.connected = true := h c (List.mem_cons_self c rest)
    have hrest := ih (fun d hd => h d (List.mem_cons_of_mem c hd))
    simp [connectSlots, hc, hrest]

theorem connectSlots_none_iff {Cb : Type} (f : Option Cb) (x : Nat) (o : Bool)
    (l : List (connection Cb)) :
    (connectSlots f x o l).2 = none ↔ ∀ c ∈ l, c.connected = true := by
  constructor
  · intro h
    induction l with
    | nil => intro c hc; cases hc
    | cons c rest ih =>
      intro d hd
      cases hc : c.connected with
      | false => simp [connectSlots, hc] at h
      | true =>
        rw [connectSlots, hc] at h
        simp only [if_true, Option.map_eq_none] at h
        rcases List.mem_cons.mp hd with h' | h'
        · subst h'; exact hc
        · exact ih (by simpa using h) d h'
  · intro h
    rw [connectSlots_full f x o h]

theorem connectSlots_some_set {Cb : Type} {f : Option Cb} {x : Nat} {o : Bool}
    {l : List (connection Cb)} {i : Nat}
    (h : (connectSlots f x o l).2 = some i) :
    ∃ c, l.get? i = some c ∧ c.connected = false ∧
      (connectSlots f x o l).1 =
        l.set i { connected := true, once := o, callback := f, context := x } := by
  induction l generalizing i with
  | nil => cases h
  | cons c rest ih =>
    cases hc : c.connected with
    | false =>
      rw [connectSlots, hc] at h ⊢
      simp only [Bool.false_eq_true, if_false] at h ⊢
      cases h
      exact ⟨c, rfl, hc, rfl⟩
    | true =>
      rw [connectSlots, hc] at h ⊢
      simp only [if_true] at h ⊢
      cases hr : (connectSlots f x o rest).2 with
      | none => rw [hr] at h; cases h
      | some i' =>
        rw [hr] at h
        simp only [Option.map] at h
        cases h
        obtain ⟨d, hd, hdc, hset⟩ := ih hr
        exact ⟨d, hd, hdc, by simp [hset]⟩

theorem connectSlots_count {Cb : Type} {f : Option Cb} {x : Nat} {o : Bool}
    {l : List (connection Cb)} {i : Nat}
    (h : (connectSlots f x o l).2 = some i) :
    (connectSlots f x o l).1.countP (fun c => c.connected) =
      l.countP (fun c => c.connected) + 1 := by
  induction l generalizing i with
  | nil => cases h
  | cons c rest ih =>
    cases hc : c.connected with
    | false =>
      rw [connectSlots, hc]
      simp [List.countP_cons, hc]
    | true =>
      rw [connectSlots, hc] at h ⊢
      simp only [if_true] at h ⊢
      cases hr : (connectSlots f x o rest).2 with
      | none => rw [hr] at h; cases h
      | some i' =>
        simp only [List.countP_cons, hc]
        rw [ih hr]
        omega

/-- C1: with the signal active, fire dispatches exactly the connected
slots with a non-null callback, in increasing slot-index order, passing
each slot's stored context and the fired arguments; a slot that is not
connected at fire time is never invoked, and the net state effect is that
every dispatched one-shot slot is deactivated while all other slots are
untouched. -/
theorem c1_fire_exact {Cb Args : Type} (s : signal Cb) (a : Args)
    (hact : s.active = true) :
    (s.fire a).2 = (withIdx 0 s.connections).filterMap (slotEvent a)
    ∧ (s.fire a).1.active = true
    ∧ (s.fire a).1.connections = s.connections.map fireStep
    ∧ (s.fire a).2.Pairwise (fun e₁ e₂ => e₁.idx < e₂.idx)
    ∧ (∀ j c, s.connections.get? j = some c → c.connected = false →
        ∀ e ∈ (s.fire a).2, e.idx ≠ j)
    ∧ (∀ e ∈ (s.fire a).2, ∃ c, s.connections.get? e.idx = some c ∧
        c.connected = true ∧ c.callback = some e.cb ∧ c.context = e.ctx ∧
        e.args = a)
    ∧ (∀ j c f, s.connections.get? j = some c → c.connected = true →
        c.callback = some f →
        (⟨j, f, c.context, a⟩ : event Cb Args) ∈ (s.fire a).2) := by
  have hfire : s.fire a = ({ s with connections := (fireSlots a s.connections).1 },
      (fireSlots a s.connections).2) := by
    simp [signal.fire, hact]
  rw [hfire]
  refine ⟨?_, hact, fireSlots_fst a s.connections, ?_, ?_, ?_, ?_⟩
  · rw [fireSlots_snd]
    exact fireTrace_eq_filterMap a 0 s.connections
  · rw [fireSlots_snd]
    exact fireTrace_pairwise a 0 s.connections
  · rw [fireSlots_snd]
    intro j c hj hc e he hidx
    obtain ⟨j', d, hj', hidx', hd, _, _, _⟩ := mem_fireTrace_elim he
    rw [Nat.zero_add] at hidx'
    rw [hidx] at hidx'
    rw [hidx'] at hj
    rw [hj] at hj'
    cases hj'
    rw [hc] at hd
    cases hd
  · rw [fireSlots_snd]
    intro e he
    obtain ⟨j, d, hj, hidx, hd, hcb, hctx, hargs⟩ := mem_fireTrace_elim he
    rw [Nat.zero_add] at hidx
    exact ⟨d, by rw [hidx]; exact hj, hd, hcb, hctx, hargs⟩
  · rw [fireSlots_snd]
    intro j c f hj hc hf
    have := mem_fireTrace_of_slot a hj hc hf 0
    rw [Nat.zero_add] at this
    exact this

theorem c1_witness :
    ((⟨true, [⟨true, false, some 2, 9⟩, ⟨false, false, some 3, 1⟩]⟩ :
        signal Nat).fire (5 : Nat)).2 =
      (withIdx 0 [⟨true, false, some 2, 9⟩, ⟨false, false, some 3, 1⟩]).filterMap
        (slotEvent 5) :=
  (c1_fire_exact ⟨true, [⟨true, false, some 2, 9⟩, ⟨false, false, some 3, 1⟩]⟩
    5 rfl).1

/-- C5: suspend and resume toggle only the active flag and leave every
slot untouched; a fire on a suspended signal invokes nothing and changes
no state, and a fire after a subsequent resume dispatches all still-active
callbacks. -/
theorem c5_suspend_resume {Cb Args : Type} (s : signal Cb) (a : Args) :
    s.suspend.active = false ∧ s.suspend.connections = s.connections
    ∧ s.resume.active = true ∧ s.resume.connections = s.connections
    ∧ s.suspend.fire a = (s.suspend, ([] : List (event Cb Args)))
    ∧ (s.suspend.resume.fire a).2 =
        (withIdx 0 s.connections).filterMap (slotEvent a)
    ∧ (s.suspend.resume.fire a).1.connections = s.connections.map fireStep := by
  refine ⟨rfl, rfl, rfl, rfl, ?_, ?_, ?_⟩
  · rw [signal.fire]
    simp [signal.suspend]
  · rw [signal.fire]
    simp only [signal.resume, signal.suspend, if_true]
    exact (fireSlots_snd a s.connections).trans
      (fireTrace_eq_filterMap a 0 s.connections)
  · rw [signal.fire]
    simp only [signal.resume, signal.suspend, if_true]
    exact fireSlots_fst a s.connections

theorem dbc_step_connected {Cb : Type} [DecidableEq Cb] (f : Option Cb)
    (c : connection Cb) :
    (if c.connected ∧ c.callback = f then c.disconnect else c).connected =
      (c.connected && !decide (c.callback = f)) := by
  by_cases h2 : c.callback = f
  · cases hc : c.connected <;> simp [hc, h2, connection.disconnect]
  · cases hc : c.connected <;> simp [hc, h2]

theorem dbx_step_connected {Cb : Type} (x : Nat) (c : connection Cb) :
    (if c.connected ∧ c.context = x then c.disconnect else c).connected =
      (c.connected && !decide (c.context = x)) := by
  by_cases h2 : c.context = x
  · cases hc : c.connected <;> simp [hc, h2, connection.disconnect]
  · cases hc : c.connected <;> simp [hc, h2]

/-- C6: disconnect_by_callback deactivates exactly the connected slots
whose callback pointer equals the argument, disconnect_by_context exactly
the connected slots whose context pointer equals the argument; both leave
the active flag, the slot count, and every slot's once/callback/context
fields unchanged, and touch no other slot's connected flag. -/
theorem c6_disconnect_by {Cb : Type} [DecidableEq Cb] (s : signal Cb)
    (f : Option Cb) (x : Nat) (i : Nat) :
    (s.disconnect_by_callback f).active = s.active
    ∧ (s.disconnect_by_context x).active = s.active
    ∧ (s.disconnect_by_callback f).connections.length = s.connections.length
    ∧ (s.disconnect_by_context x).connections.length = s.connections.length
    ∧ ((s.disconnect_by_callback f).connections.get? i).map
        (fun c => c.connected) =
      (s.connections.get? i).map
        (fun c => c.connected && !decide (c.callback = f))
    ∧ ((s.disconnect_by_callback f).connections.get? i).map
        (fun c => (c.once, c.callback, c.context)) =
      (s.connections.get? i).map (fun c => (c.once, c.callback, c.context))
    ∧ ((s.disconnect_by_context x).connections.get? i).map
        (fun c => c.connected) =
      (s.connections.get? i).map
        (fun c => c.connected && !decide (c.context = x))
    ∧ ((s.disconnect_by_context x).connections.get? i).map
        (fun c => (c.once, c.callback, c.context)) =
      (s.connections.get? i).map (fun c => (c.once, c.callback, c.context)) := by
  refine ⟨rfl, rfl, by simp [signal.disconnect_by_callback],
    by simp [signal.disconnect_by_context], ?_, ?_, ?_, ?_⟩
  · rw [signal.disconnect_by_callback]
    simp only [List.get?_map, Option.map_map]
    cases hgi : s.connections.get? i with
    | none => rfl
    | some c => simp [Function.comp, dbc_step_connected]
  · rw [signal.disconnect_by_callback]
    simp only [List.get?_map, Option.map_map]
    cases hgi : s.connections.get? i with
    | none => rfl
    | some c =>
      simp only [Option.map]
      by_cases h2 : c.callback = f
      · cases hc : c.connected <;> simp [Function.comp, hc, h2, connection.disconnect]
      · cases hc : c.connected <;> simp [Function.comp, hc, h2]
  · rw [signal.disconnect_by_context]
    simp only [List.get?_map, Option.map_map]
    cases hgi : s.connections.get? i with
    | none => rfl
    | some c => simp [Function.comp, dbx_step_connected]
  · rw [signal.disconnect_by_context]
    simp only [List.get?_map, Option.map_map]
    cases hgi : s.connections.get? i with
    | none => rfl
    | some c =>
      simp only [Option.map]
      by_cases h2 : c.context = x
      · cases hc : c.connected <;> simp [Function.comp, hc, h2, connection.disconnect]
      · cases hc : c.connected <;> simp [Function.comp, hc, h2]

/-- In-place update of the slot at one index, modelling a mutation made
through a pointer into the signal's slot array. -/
def updateAt {α : Type} : Nat → (α → α) → List α → List α
  | _, _, [] => []
  | 0, g, c :: rest => g c :: rest
  | n + 1, g, c :: rest => c :: updateAt n g rest

/-- Calling disconnect() through a connection pointer that designates slot
i of this signal. -/
def signal.disconnectAt {Cb : Type} (s : signal Cb) (i : Nat) : signal Cb :=
  { s with connections := updateAt i connection.disconnect s.connections }

theorem get?_updateAt_self {α : Type} (g : α → α) :
    ∀ (l : List α) (i : Nat), (updateAt i g l).get? i = (l.get? i).map g := by
  intro l
  induction l with
  | nil => intro i; cases i <;> rfl
  | cons c rest ih =>
    intro i
    cases i with
    | zero => rfl
    | succ i' => exact ih i'

theorem get?_updateAt_ne {α : Type} (g : α → α) :
    ∀ (l : List α) (i j : Nat), j ≠ i → (updateAt i g l).get? j = l.get? j := by
  intro l
  induction l with
  | nil => intro i j _; cases i <;> rfl
  | cons c rest ih =>
    intro i j hne
    cases i with
    | zero =>
      cases j with
      | zero => exact absurd rfl hne
      | succ j' => rfl
    | succ i' =>
      cases j with
      | zero => rfl
      | succ j' => exact ih i' j' (fun h => hne (congrArg Nat.succ h))

/-- struct scoped_connection: the managed connection pointer, modelled as
the managed slot index inside the owning signal (none = nullptr). -/
structure scoped_connection where
  conn : Option Nat
deriving DecidableEq

/-- scoped_connection::~scoped_connection — if the wrapper manages a
non-null pointer to a still-connected slot, disconnect it; otherwise do
nothing. -/
def scDtor {Cb : Type} (sc : scoped_connection) (s : signal Cb) : signal Cb :=
  match sc.conn with
  | none => s
  | some i =>
    match s.connections.get? i with
    | none => s
    | some c => if c.connected then s.disconnectAt i else s

/-- scoped_connection move assignment (for two distinct wrapper objects):
first disconnect the currently managed connection if still connected, then
take over the source's pointer, leaving the source empty.  Returns the new
destination, the new source, and the updated signal. -/
def scMoveAssign {Cb : Type} (dst src : scoped_connection) (s : signal Cb) :
    scoped_connection × scoped_connection × signal Cb :=
  (⟨src.conn⟩, ⟨none⟩,
    match dst.conn with
    | none => s
    | some i =>
      match s.connections.get? i with
      | none => s
      | some c => if c.connected then s.disconnectAt i else s)

/-- scoped_connection::release — return the managed pointer and leave the
wrapper empty, without disconnecting. -/
def scRelease (sc : scoped_connection) : Option Nat × scoped_connection :=
  (sc.conn, ⟨none⟩)

/-- C7: destroying a scoped_connection disconnects the managed slot
exactly when the wrapper holds a non-null pointer to a still-connected
slot, and changes nothing else (pointwise slot characterization);
release() hands back the managed pointer and empties the wrapper, and a
wrapper destroyed after release() disconnects nothing; move assignment
transfers the pointer, empties the source, and applies to the previously
managed connection exactly the destructor's disconnect-if-connected
effect. -/
theorem c7_scoped {Cb : Type} (sc other : scoped_connection) (s : signal Cb)
    (j : Nat) :
    (scDtor sc s).active = s.active
    ∧ ((scDtor sc s).connections.get? j = (s.connections.get? j).map
        (fun c => if sc.conn = some j ∧ c.connected then c.disconnect else c))
    ∧ scRelease sc = (sc.conn, (⟨none⟩ : scoped_connection))
    ∧ scDtor (scRelease sc).2 s = s
    ∧ (scMoveAssign sc other s).1 = (⟨other.conn⟩ : scoped_connection)
    ∧ (scMoveAssign sc other s).2.1 = (⟨none⟩ : scoped_connection)
    ∧ (scMoveAssign sc other s).2.2 = scDtor sc s := by
  have hnone : ∀ t : signal Cb, scDtor ⟨none⟩ t = t := fun _ => rfl
  have hsome : ∀ (i : Nat) (t : signal Cb), scDtor ⟨some i⟩ t =
      (match t.connections.get? i with
       | none => t
       | some c => if c.connected then t.disconnectAt i else t) :=
    fun _ _ => rfl
  obtain ⟨oc⟩ := sc
  refine ⟨?_, ?_, rfl, rfl, rfl, rfl, rfl⟩
  · cases oc with
    | none => rw [hnone]
    | some i =>
      rw [hsome]
      cases hgi : s.connections.get? i with
      | none => rfl
      | some c =>
        by_cases hc : c.connected
        · simp [hc, signal.disconnectAt]
        · simp [hc]
  · cases oc with
    | none =>
      rw [hnone]
      cases hgj : s.connections.get? j with
      | none => rfl
      | some c => simp
    | some i =>
      rw [hsome]
      cases hgi : s.connections.get? i with
      | none =>
        by_cases hij : i = j
        · subst hij
          rw [hgi]
          simp [hgi]
        · cases hgj : s.connections.get? j with
          | none => simp [hgj]
          | some c =>
            simp only [Option.map]
            have hcond : ¬(i = j ∧ c.connected = true) := fun h => hij h.1
            simp [hcond]
      | some c =>
        by_cases hc : c.connected
        · simp only [hc, if_true]
          by_cases hij : j = i
          · subst hij
            show (updateAt j connection.disconnect s.connections).get? j = _
            rw [get?_updateAt_self, hgi]
            simp [hc]
          · show (updateAt i connection.disconnect s.connections).get? j = _
            rw [get?_updateAt_ne _ _ _ _ hij]
            cases hgj : s.connections.get? j with
            | none => rfl
            | some d =>
              simp only [Option.map]
              have hcond : ¬(i = j ∧ d.connected = true) := fun h => hij h.1.symm
              simp [hcond]
        · simp only [hc]
          simp only [Bool.false_eq_true, if_false]
          by_cases hij : j = i
          · subst hij
            rw [hgi]
            simp only [Option.map]
            have hcf : c.connected = false := by
              cases h : c.connected
              · rfl
              · exact absurd h hc
            simp [hcf]
          · cases hgj : s.connections.get? j with
            | none => rfl
            | some d =>
              simp only [Option.map]
              have hcond : ¬(i = j ∧ d.connected = true) := fun h => hij h.1.symm
              simp [hcond]

/-- A sequence of connect calls: each element supplies the callback and
context of one call; the results are the returned slot pointers in call
order. -/
def connectSeq {Cb : Type} (s : signal Cb) :
    List (Option Cb × Nat) → signal Cb × List (Option Nat)
  | [] => (s, [])
  | p :: ps =>
    let r := s.connect p.1 p.2
    let r' := connectSeq r.1 ps
    (r'.1, r.2 :: r'.2)

theorem connectSlots_append_free {Cb : Type} (f : Option Cb) (x : Nat)
    (o : Bool) :
    ∀ (l₁ : List (connection Cb)) {d : connection Cb}
      (l₂ : List (connection Cb)),
      (∀ c ∈ l₁, c.connected = true) → d.connected = false →
      connectSlots f x o (l₁ ++ d :: l₂) =
        (l₁ ++ { connected := true, once := o, callback := f, context := x } :: l₂,
         some l₁.length) := by
  intro l₁
  induction l₁ with
  | nil =>
    intro d l₂ _ hd
    simp [connectSlots, hd]
  | cons c l₁t ih =>
    intro d l₂ h1 hd
    have hc : c.connected = true := h1 c (List.mem_cons_self c l₁t)
    have hrec := ih l₂ (fun e he => h1 e (List.mem_cons_of_mem c he)) hd
    simp [connectSlots, hc, hrec]

theorem connectSeq_fill {Cb : Type} :
    ∀ (ps : List (Option Cb × Nat)) (l₁ l₂ : List (connection Cb)) (act : Bool),
      (∀ c ∈ l₁, c.connected = true) → (∀ c ∈ l₂, c.connected = false) →
      ps.length ≤ l₂.length →
      (connectSeq ⟨act, l₁ ++ l₂⟩ ps).2 =
        (List.range' l₁.length ps.length).map some
      ∧ ∃ l₁' l₂', (connectSeq ⟨act, l₁ ++ l₂⟩ ps).1 = ⟨act, l₁' ++ l₂'⟩
          ∧ l₁'.length = l₁.length + ps.length
          ∧ l₂'.length + ps.length = l₂.length
          ∧ (∀ c ∈ l₁', c.connected = true)
          ∧ (∀ c ∈ l₂', c.connected = false) := by
  intro ps
  induction ps with
  | nil =>
    intro l₁ l₂ act h1 h2 _
    exact ⟨rfl, l₁, l₂, rfl, by simp, by simp, h1, h2⟩
  | cons p ps ih =>
    intro l₁ l₂ act h1 h2 hlen
    cases l₂ with
    | nil => simp at hlen
    | cons d l₂t =>
      have hd : d.connected = false := h2 d (List.mem_cons_self d l₂t)
      have hstep := connectSlots_append_free p.1 p.2 false l₁ l₂t h1 hd
      have hconn : (signal.connect ⟨act, l₁ ++ d :: l₂t⟩ p.1 p.2) =
          (⟨act, (l₁ ++ [⟨true, false, p.1, p.2⟩]) ++ l₂t⟩, some l₁.length) := by
        simp [signal.connect, hstep]
      have h1' : ∀ c ∈ l₁ ++ [(⟨true, false, p.1, p.2⟩ : connection Cb)],
          c.connected = true := by
        intro c hc
        rcases List.mem_append.mp hc with h | h
        · exact h1 c h
        · rcases List.mem_singleton.mp h with h'
          rw [h']
      have h2' : ∀ c ∈ l₂t, c.connected = false :=
        fun c hc => h2 c (List.mem_cons_of_mem d hc)
      have hlen' : ps.length ≤ l₂t.length := by
        simp only [List.length_cons] at hlen
        omega
      obtain ⟨hres, l₁', l₂', hst, hl1, hl2, hc1, hc2⟩ :=
        ih (l₁ ++ [⟨true, false, p.1, p.2⟩]) l₂t act h1' h2' hlen'
      have hlen1 : (l₁ ++ [(⟨true, false, p.1, p.2⟩ : connection Cb)]).length =
          l₁.length + 1 := by simp
      constructor
      · show (connectSeq ⟨act, l₁ ++ d :: l₂t⟩ (p :: ps)).2 = _
        rw [connectSeq]
        simp only [hconn, hres, hlen1, List.length_cons]
        rw [List.range'_succ]
        simp
      · have ha : l₁'.length = l₁.length + (p :: ps).length := by
          rw [hlen1] at hl1
          simp only [List.length_cons]
          omega
        have hb : l₂'.length + (p :: ps).length = (d :: l₂t).length := by
          simp only [List.length_cons]
          omega
        refine ⟨l₁', l₂', ?_, ha, hb, hc1, hc2⟩
        show (connectSeq ⟨act, l₁ ++ d :: l₂t⟩ (p :: ps)).1 = _
        rw [connectSeq]
        simp only [hconn]
        exact hst

theorem connect_full_eq {Cb : Type} (s : signal Cb) (f : Option Cb) (x : Nat)
    (h : ∀ c ∈ s.connections, c.connected = true) :
    s.connect f x = (s, none) := by
  obtain ⟨act, conns⟩ := s
  simp [signal.connect, connectSlots_full f x false (by simpa using h)]

theorem once_full_eq {Cb : Type} (s : signal Cb) (f : Option Cb) (x : Nat)
    (h : ∀ c ∈ s.connections, c.connected = true) :
    s.once f x = (s, none) := by
  obtain ⟨act, conns⟩ := s
  simp [signal.once, connectSlots_full f x true (by simpa using h)]

/-- C2: on a freshly constructed signal, any sequence of up to
N = max_connections() connect calls all succeed and return pairwise
distinct slots (the slot indices 0, 1, ...), after which
connection_count() reports the number of calls; when the N calls have
filled the signal, a further connect or once call returns an absent
result and leaves the state (hence every slot) unchanged. -/
theorem c2_fill_capacity {Cb : Type} (g : List (connection Cb))
    (ps : List (Option Cb × Nat))
    (hg : g.length = CPP_CONNECTIONS_MAX_CONNECTIONS)
    (hps : ps.length ≤ CPP_CONNECTIONS_MAX_CONNECTIONS) :
    (connectSeq (signal.init g) ps).2 = (List.range' 0 ps.length).map some
    ∧ (connectSeq (signal.init g) ps).2.Nodup
    ∧ (∀ r ∈ (connectSeq (signal.init g) ps).2, r.isSome = true)
    ∧ (connectSeq (signal.init g) ps).1.connection_count = ps.length
    ∧ (signal.init g).max_connections = CPP_CONNECTIONS_MAX_CONNECTIONS
    ∧ (ps.length = CPP_CONNECTIONS_MAX_CONNECTIONS →
        ∀ f x, (connectSeq (signal.init g) ps).1.connect f x =
            ((connectSeq (signal.init g) ps).1, none)
          ∧ (connectSeq (signal.init g) ps).1.once f x =
            ((connectSeq (signal.init g) ps).1, none)) := by
  have hinit : signal.init g = ⟨true, [] ++ g.map connection.disconnect⟩ := by
    rw [signal.init]
    simp
  have h2 : ∀ c ∈ g.map connection.disconnect, c.connected = false := by
    intro c hc
    obtain ⟨d, _, hd⟩ := List.mem_map.mp hc
    rw [← hd]
    rfl
  have hlen2 : ps.length ≤ (g.map connection.disconnect).length := by
    rw [List.length_map, hg]
    exact hps
  obtain ⟨hres, l₁', l₂', hst, hl1, hl2, hc1, hc2⟩ :=
    connectSeq_fill ps [] (g.map connection.disconnect) true
      (by intro c hc; cases hc) h2 hlen2
  rw [hinit]
  refine ⟨by simpa using hres, ?_, ?_, ?_, rfl, ?_⟩
  · rw [show (connectSeq ⟨true, [] ++ g.map connection.disconnect⟩ ps).2 =
      (List.range' 0 ps.length).map some from by simpa using hres]
    exact (List.nodup_range' 0 ps.length 1 (by decide)).map (Option.some_injective Nat)
  · rw [show (connectSeq ⟨true, [] ++ g.map connection.disconnect⟩ ps).2 =
      (List.range' 0 ps.length).map some from by simpa using hres]
    intro r hr
    obtain ⟨n, _, hn⟩ := List.mem_map.mp hr
    rw [← hn]
    rfl
  · rw [hst, signal.connection_count]
    show (l₁' ++ l₂').countP (fun c => c.connected) = ps.length
    rw [List.countP_append]
    have e1 : l₁'.countP (fun c => c.connected) = l₁'.length :=
      List.countP_eq_length.mpr (fun c hc => by rw [hc1 c hc])
    have e2 : l₂'.countP (fun c => c.connected) = 0 :=
      List.countP_eq_zero.mpr (fun c hc => by rw [hc2 c hc]; simp)
    rw [e1, e2, hl1]
    simp
  · intro hfull f x
    have hl2nil : l₂' = [] := by
      rw [hfull] at hl2
      rw [List.length_map, hg] at hl2
      have : l₂'.length = 0 := by omega
      exact List.length_eq_zero.mp this
    have hallconn : ∀ c ∈ (connectSeq ⟨true, [] ++ g.map connection.disconnect⟩
        ps).1.connections, c.connected = true := by
      rw [hst, hl2nil]
      intro c hc
      simp only [List.append_nil] at hc
      exact hc1 c hc
    exact ⟨connect_full_eq _ f x hallconn, once_full_eq _ f x hallconn⟩

theorem c2_witness :
    (connectSeq
        (signal.init (List.replicate 128 (⟨false, false, none, 0⟩ : connection Nat)))
        (List.replicate 128 ((some 1, 2) : Option Nat × Nat))).1.connection_count = 128
    ∧ ((connectSeq
        (signal.init (List.replicate 128 (⟨false, false, none, 0⟩ : connection Nat)))
        (List.replicate 128 ((some 1, 2) : Option Nat × Nat))).1.connect (some 3) 4).2 =
        none := by
  have h := c2_fill_capacity
    (List.replicate 128 (⟨false, false, none, 0⟩ : connection Nat))
    (List.replicate 128 ((some 1, 2) : Option Nat × Nat))
    (by simp [CPP_CONNECTIONS_MAX_CONNECTIONS])
    (by simp [CPP_CONNECTIONS_MAX_CONNECTIONS])

  refine ⟨by simpa using h.2.2.2.1, ?_⟩
  have h6 := (h.2.2.2.2.2 (by simp [CPP_CONNECTIONS_MAX_CONNECTIONS]) (some 3) 4).1
  rw [h6]

theorem fire_fst {Cb Args : Type} (s : signal Cb) (a : Args) :
    (s.fire a).1 =
      if s.active then { s with connections := s.connections.map fireStep }
      else s := by
  cases h : s.active with
  | true => simp [signal.fire, h, fireSlots_fst]
  | false => simp [signal.fire, h]

theorem fire_snd {Cb Args : Type} (s : signal Cb) (a : Args) :
    (s.fire a).2 = if s.active then fireTrace a 0 s.connections else [] := by
  cases h : s.active with
  | true => simp [signal.fire, h, fireSlots_snd]
  | false => simp [signal.fire, h]

theorem fireStep_skip {Cb : Type} {c : connection Cb}
    (h : (c.connected && c.callback.isSome) = false) : fireStep c = c := by
  rw [fireStep]
  cases hc : c.connected with
  | false => simp
  | true =>
    rw [hc] at h
    simp only [Bool.true_and] at h
    simp [h]

theorem fire_skipped {Cb Args : Type} (s : signal Cb) (a : Args) {j : Nat}
    {c : connection Cb} (hj : s.connections.get? j = some c)
    (hskip : (c.connected && c.callback.isSome) = false) :
    (s.fire a).1.connections.get? j = some c
    ∧ (s.fire a).2.countP (fun e => e.idx == j) = 0 := by
  constructor
  · rw [fire_fst]
    cases h : s.active with
    | false =>
      simp only [Bool.false_eq_true, if_false]
      exact hj
    | true =>
      simp only [if_true]
      show (s.connections.map fireStep).get? j = some c
      rw [List.get?_map, hj]
      simp [fireStep_skip hskip]
  · rw [fire_snd]
    cases h : s.active with
    | false => simp
    | true =>
      simp only [if_true]
      have := fireTrace_countP_idx a s.connections 0 j
      simp only [Nat.zero_add] at this
      rw [this, hj]
      simp [hskip]

/-- A sequence of fire calls, concatenating the invocation traces. -/
def fireSeq {Cb Args : Type} (s : signal Cb) :
    List Args → signal Cb × List (event Cb Args)
  | [] => (s, [])
  | a :: as =>
    let r := s.fire a
    let r' := fireSeq r.1 as
    (r'.1, r.2 ++ r'.2)

theorem fireSeq_skipped {Cb Args : Type} :
    ∀ (as : List Args) (s : signal Cb) {j : Nat} {c : connection Cb},
      s.connections.get? j = some c →
      (c.connected && c.callback.isSome) = false →
      (fireSeq s as).1.connections.get? j = some c
      ∧ (fireSeq s as).2.countP (fun e => e.idx == j) = 0 := by
  intro as
  induction as with
  | nil => intro s j c hj _; exact ⟨hj, rfl⟩
  | cons a as ih =>
    intro s j c hj hskip
    obtain ⟨h1, h2⟩ := fire_skipped s a hj hskip
    obtain ⟨h3, h4⟩ := ih (s.fire a).1 h1 hskip
    refine ⟨h3, ?_⟩
    show ((s.fire a).2 ++ (fireSeq (s.fire a).1 as).2).countP
      (fun e => e.idx == j) = 0
    rw [List.countP_append, h2, h4]

theorem get?_some_lt {α : Type} :
    ∀ {l : List α} {i : Nat} {c : α}, l.get? i = some c → i < l.length := by
  intro l
  induction l with
  | nil => intro i c h; cases i <;> cases h
  | cons d rest ih =>
    intro i c h
    cases i with
    | zero => exact Nat.succ_pos rest.length
    | succ i' => exact Nat.succ_lt_succ (ih h)

/-- C10: both connect and once accept a null callback pointer: the
registration occupies a slot (populated with connected = true and a null
callback, once set accordingly), increments connection_count, yet no fire
sequence ever invokes it — and every invocation fire performs dispatches
through the non-null callback pointer stored in the dispatched slot, even
in states where the connected-implies-non-null invariant fails. -/
theorem c10_null_callback {Cb Args : Type} (s : signal Cb) (x : Nat)
    (i io : Nat) (a : Args) (as : List Args)
    (hc : (s.connect none x).2 = some i)
    (ho : (s.once none x).2 = some io) :
    ((s.connect none x).1.connections.get? i = some ⟨true, false, none, x⟩)
    ∧ ((s.connect none x).1.connection_count = s.connection_count + 1)
    ∧ ((fireSeq (s.connect none x).1 as).2.countP (fun e => e.idx == i) = 0)
    ∧ ((s.once none x).1.connections.get? io = some ⟨true, true, none, x⟩)
    ∧ ((s.once none x).1.connection_count = s.connection_count + 1)
    ∧ ((fireSeq (s.once none x).1 as).2.countP (fun e => e.idx == io) = 0)
    ∧ (∀ e ∈ ((s.connect none x).1.fire a).2,
        ((s.connect none x).1.connections.get? e.idx).map (fun c => c.callback) =
          some (some e.cb))
    ∧ (∀ e ∈ ((s.once none x).1.fire a).2,
        ((s.once none x).1.connections.get? e.idx).map (fun c => c.callback) =
          some (some e.cb)) := by
  have hsndc : (s.connect none x).2 =
      (connectSlots none x false s.connections).2 := rfl
  have hfstc : (s.connect none x).1.connections =
      (connectSlots none x false s.connections).1 := rfl
  have hsndo : (s.once none x).2 =
      (connectSlots none x true s.connections).2 := rfl
  have hfsto : (s.once none x).1.connections =
      (connectSlots none x true s.connections).1 := rfl
  rw [hsndc] at hc
  rw [hsndo] at ho
  obtain ⟨c, hgic, hccf, hsetc⟩ := connectSlots_some_set hc
  obtain ⟨co, hgio, hcof, hseto⟩ := connectSlots_some_set ho
  have hltc : i < s.connections.length := get?_some_lt hgic
  have hlto : io < s.connections.length := get?_some_lt hgio
  have hgetc : (s.connect none x).1.connections.get? i =
      some ⟨true, false, none, x⟩ := by
    rw [hfstc, hsetc]
    exact get?_set_self s.connections i _ hltc
  have hgeto : (s.once none x).1.connections.get? io =
      some ⟨true, true, none, x⟩ := by
    rw [hfsto, hseto]
    exact get?_set_self s.connections io _ hlto
  refine ⟨hgetc, ?_, ?_, hgeto, ?_, ?_, ?_, ?_⟩
  · show (s.connect none x).1.connections.countP (fun c => c.connected) =
      s.connections.countP (fun c => c.connected) + 1
    rw [hfstc]
    exact connectSlots_count hc
  · exact (fireSeq_skipped as (s.connect none x).1 hgetc (by simp)).2
  · show (s.once none x).1.connections.countP (fun c => c.connected) =
      s.connections.countP (fun c => c.connected) + 1
    rw [hfsto]
    exact connectSlots_count ho
  · exact (fireSeq_skipped as (s.once none x).1 hgeto (by simp)).2
  · intro e he
    rw [fire_snd] at he
    by_cases hact : (s.connect none x).1.active = true
    · rw [if_pos hact] at he
      obtain ⟨j, d, hj, hidx, hdc, hdcb, _, _⟩ := mem_fireTrace_elim he
      rw [Nat.zero_add] at hidx
      rw [hidx, hj]
      simp [hdcb]
    · rw [if_neg hact] at he
      cases he
  · intro e he
    rw [fire_snd] at he
    by_cases hact : (s.once none x).1.active = true
    · rw [if_pos hact] at he
      obtain ⟨j, d, hj, hidx, hdc, hdcb, _, _⟩ := mem_fireTrace_elim he
      rw [Nat.zero_add] at hidx
      rw [hidx, hj]
      simp [hdcb]
    · rw [if_neg hact] at he
      cases he

theorem c10_witness :
    (((⟨true, [⟨false, false, none, 0⟩]⟩ : signal Nat).connect none 7).1.connection_count =
      (⟨true, [⟨false, false, none, 0⟩]⟩ : signal Nat).connection_count + 1)
    ∧ ((fireSeq (((⟨true, [⟨false, false, none, 0⟩]⟩ : signal Nat).connect none 7).1)
        [(3 : Nat), 4]).2.countP (fun e => e.idx == 0) = 0)
    ∧ (((⟨true, [⟨false, false, none, 0⟩]⟩ : signal Nat).once none 7).1.connections.get? 0 =
        some ⟨true, true, none, 7⟩)
    ∧ (((⟨true, [⟨false, false, none, 0⟩]⟩ : signal Nat).once none 7).1.connection_count =
      (⟨true, [⟨false, false, none, 0⟩]⟩ : signal Nat).connection_count + 1)
    ∧ ((fireSeq (((⟨true, [⟨false, false, none, 0⟩]⟩ : signal Nat).once none 7).1)
        [(3 : Nat), 4]).2.countP (fun e => e.idx == 0) = 0) := by
  have h := c10_null_callback (⟨true, [⟨false, false, none, 0⟩]⟩ : signal Nat)
    7 0 0 (3 : Nat) [(3 : Nat), 4] (by decide) (by decide)
  exact ⟨h.2.1, h.2.2.1, h.2.2.2.1, h.2.2.2.2.1, h.2.2.2.2.2.1⟩

theorem map_id_of_mem {α : Type} (g : α → α) :
    ∀ {l : List α}, (∀ d ∈ l, g d = d) → l.map g = l := by
  intro l
  induction l with
  | nil => intro _; rfl
  | cons c rest ih =>
    intro h
    rw [List.map_cons, h c (List.mem_cons_self c rest),
      ih (fun d hd => h d (List.mem_cons_of_mem c hd))]

theorem fireTrace_nil_of_dead {Cb Args : Type} (a : Args) :
    ∀ (n : Nat) {l : List (connection Cb)},
      (∀ d ∈ l, d.connected = false) → fireTrace a n l = [] := by
  intro n l
  induction l generalizing n with
  | nil => intro _; rfl
  | cons c rest ih =>
    intro h
    have hc : c.connected = false := h c (List.mem_cons_self c rest)
    rw [fireTrace, hc]
    simp only [Bool.false_eq_true, if_false]
    exact ih _ (fun d hd => h d (List.mem_cons_of_mem c hd))

/-- C9: connection::disconnect only clears the connected flag, is
idempotent, and is a no-op on an already-inactive connection; the
slot-allocating calls fail (return an absent pointer) exactly when every
slot is occupied, which is the only failure mode: disconnecting by a
callback or context that matches no active slot leaves the signal
unchanged, and firing a signal with zero connections returns it unchanged
with an empty invocation trace. -/
theorem c9_totality {Cb Args : Type} [DecidableEq Cb] (c : connection Cb)
    (s : signal Cb) (f : Option Cb) (x : Nat) (a : Args) :
    (c.disconnect.connected = false ∧ c.disconnect.once = c.once ∧
      c.disconnect.callback = c.callback ∧ c.disconnect.context = c.context)
    ∧ c.disconnect.disconnect = c.disconnect
    ∧ (c.connected = false → c.disconnect = c)
    ∧ ((s.connect f x).2 = none ↔ ∀ d ∈ s.connections, d.connected = true)
    ∧ ((s.once f x).2 = none ↔ ∀ d ∈ s.connections, d.connected = true)
    ∧ ((∀ d ∈ s.connections, d.connected = true → ¬(d.callback = f)) →
        s.disconnect_by_callback f = s)
    ∧ ((∀ d ∈ s.connections, d.connected = true → ¬(d.context = x)) →
        s.disconnect_by_context x = s)
    ∧ (s.connection_count = 0 → s.fire a = (s, [])) := by
  obtain ⟨act, conns⟩ := s
  refine ⟨⟨rfl, rfl, rfl, rfl⟩, rfl, ?_, ?_, ?_, ?_, ?_, ?_⟩
  · intro h
    obtain ⟨cc, o, cb, ctx⟩ := c
    simp only at h
    rw [connection.disconnect, h]
  · exact connectSlots_none_iff f x false conns
  · exact connectSlots_none_iff f x true conns
  · intro h
    rw [signal.disconnect_by_callback]
    simp only
    rw [map_id_of_mem]
    intro d hd
    by_cases hdc : d.connected = true
    · simp [hdc, h d hd hdc]
    · have : d.connected = false := by
        cases hh : d.connected
        · rfl
        · exact absurd hh hdc
      simp [this]
  · intro h
    rw [signal.disconnect_by_context]
    simp only
    rw [map_id_of_mem]
    intro d hd
    by_cases hdc : d.connected = true
    · simp [hdc, h d hd hdc]
    · have : d.connected = false := by
        cases hh : d.connected
        · rfl
        · exact absurd hh hdc
      simp [this]
  · intro h
    have hdead : ∀ d ∈ conns, d.connected = false := by
      intro d hd
      have := List.countP_eq_zero.mp h d hd
      cases hh : d.connected
      · rfl
      · rw [hh] at this; simp at this

    cases hact : act with
    | false => simp [signal.fire, hact]
    | true =>
      rw [signal.fire]
      simp only [hact, if_true]
      rw [fireSlots_fst, fireSlots_snd]
      rw [map_id_of_mem fireStep (fun d hd => fireStep_skip (by rw [hdead d hd]; rfl)),
        fireTrace_nil_of_dead a 0 hdead]

theorem c9_witness :
    ((⟨false, true, some 1, 2⟩ : connection Nat).disconnect =
      ⟨false, true, some 1, 2⟩)
    ∧ ((⟨true, [⟨false, false, none, 0⟩]⟩ : signal Nat).disconnect_by_callback
        (some 5) = ⟨true, [⟨false, false, none, 0⟩]⟩)
    ∧ ((⟨true, [⟨false, false, none, 0⟩]⟩ : signal Nat).fire (7 : Nat) =
        (⟨true, [⟨false, false, none, 0⟩]⟩, [])) := by
  have h := c9_totality (⟨false, true, some 1, 2⟩ : connection Nat)
    (⟨true, [⟨false, false, none, 0⟩]⟩ : signal Nat) (some 5) 9 (7 : Nat)
  exact ⟨h.2.2.1 rfl, h.2.2.2.2.2.1 (by decide), h.2.2.2.2.2.2.2 (by decide)⟩

theorem count_after_fireStep {Cb : Type} :
    ∀ l : List (connection Cb),
      (l.map fireStep).countP (fun c => c.connected) +
        l.countP (fun c => c.connected && c.callback.isSome && c.once) =
        l.countP (fun c => c.connected) := by
  intro l
  induction l with
  | nil => rfl
  | cons c rest ih =>
    simp only [List.map_cons, List.countP_cons]
    cases hc : c.connected with
    | false =>
      have hstep : fireStep c = c := fireStep_skip (by rw [hc]; rfl)
      rw [hstep]
      simp [hc]
      simp only [List.countP_map] at ih
      omega
    | true =>
      cases hs : c.callback.isSome with
      | false =>
        have hstep : fireStep c = c := fireStep_skip (by rw [hc, hs]; rfl)
        rw [hstep]
        simp [hc, hs]
        simp only [List.countP_map] at ih
        omega
      | true =>
        cases ho : c.once with
        | false =>
          have hstep : fireStep c = c := by
            rw [fireStep, hc, hs, ho]
            simp
          rw [hstep]
          simp [hc, hs, ho]
          simp only [List.countP_map] at ih
          omega
        | true =>
          have hstep : fireStep c = c.disconnect := by
            rw [fireStep, hc, hs, ho]
            simp
          rw [hstep]
          simp [hc, hs, ho, connection.disconnect]
          simp only [List.countP_map] at ih
          omega

theorem mem_of_get? {α : Type} :
    ∀ {l : List α} {i : Nat} {c : α}, l.get? i = some c → c ∈ l := by
  intro l
  induction l with
  | nil => intro i c h; cases i <;> cases h
  | cons d rest ih =>
    intro i c h
    cases i with
    | zero =>
      simp only [List.get?] at h
      cases h
      exact List.mem_cons_self d rest
    | succ i' => exact List.mem_cons_of_mem d (ih h)

/-- C3 (amended): a once connection with a non-null callback is invoked
exactly once across any sequence of subsequent fires while the signal is
active — on the first of them, with its stored context and that fire's
arguments — and its slot is deactivated by that fire; immediately after
that fire connection_count has decreased by the number of dispatched
one-shot slots, which is at least one (hence by exactly one when this is
the only connected once slot with a non-null callback). -/
theorem c3_once_amended {Cb Args : Type} (s : signal Cb) (j : Nat) (f : Cb)
    (x : Nat) (a : Args) (as : List Args)
    (hact : s.active = true)
    (hslot : s.connections.get? j = some ⟨true, true, some f, x⟩) :
    ((fireSeq s (a :: as)).2.countP (fun e => e.idx == j) = 1)
    ∧ ((⟨j, f, x, a⟩ : event Cb Args) ∈ (s.fire a).2)
    ∧ ((s.fire a).1.connections.get? j = some ⟨false, true, some f, x⟩)
    ∧ ((s.fire a).1.connection_count +
        s.connections.countP (fun c => c.connected && c.callback.isSome && c.once) =
        s.connection_count)
    ∧ (1 ≤ s.connections.countP
        (fun c => c.connected && c.callback.isSome && c.once)) := by
  have hstate : (s.fire a).1.connections.get? j = some ⟨false, true, some f, x⟩ := by
    rw [fire_fst, if_pos hact]
    show (s.connections.map fireStep).get? j = _
    rw [List.get?_map, hslot]
    simp [fireStep, connection.disconnect]
  have hfirst : (s.fire a).2.countP (fun e => e.idx == j) = 1 := by
    rw [fire_snd, if_pos hact]
    have := fireTrace_countP_idx a s.connections 0 j
    simp only [Nat.zero_add] at this
    rw [this, hslot]
    rfl
  have hrest : (fireSeq (s.fire a).1 as).2.countP (fun e => e.idx == j) = 0 :=
    (fireSeq_skipped as (s.fire a).1 hstate (by rfl)).2
  refine ⟨?_, ?_, hstate, ?_, ?_⟩
  · show ((s.fire a).2 ++ (fireSeq (s.fire a).1 as).2).countP
      (fun e => e.idx == j) = 1
    rw [List.countP_append, hfirst, hrest]
  · rw [fire_snd, if_pos hact]
    have := mem_fireTrace_of_slot a hslot rfl rfl 0
    simpa using this
  · rw [fire_fst, if_pos hact]
    show (s.connections.map fireStep).countP (fun c => c.connected) + _ =
      s.connections.countP (fun c => c.connected)
    exact count_after_fireStep s.connections
  · have hmem := mem_of_get? hslot
    have : 0 < s.connections.countP
        (fun c => c.connected && c.callback.isSome && c.once) :=
      List.countP_pos.mpr ⟨_, hmem, by rfl⟩
    omega

theorem c3_amended_witness :
    (fireSeq (⟨true, [⟨true, true, some 4, 6⟩]⟩ : signal Nat)
      [(9 : Nat)]).2.countP (fun e => e.idx == 0) = 1 :=
  (c3_once_amended (⟨true, [⟨true, true, some 4, 6⟩]⟩ : signal Nat) 0 4 6
    (9 : Nat) [] rfl rfl).1

/-- A reachable state refuting C3 as stated: three once registrations on a
fresh signal, the third with a null callback pointer. -/
def c3s : signal Nat :=
  ((((signal.init (List.replicate 128 ⟨false, false, none, 0⟩)).once
      (some 10) 0).1.once (some 11) 0).1.once none 0).1

theorem c3_cex :
    c3s.connection_count = 3
    ∧ c3s.connections.get? 0 = some ⟨true, true, some 10, 0⟩
    ∧ c3s.connections.get? 2 = some ⟨true, true, none, 0⟩
    ∧ ((⟨0, 10, 0, 5⟩ : event Nat Nat) ∈ (c3s.fire (5 : Nat)).2)
    ∧ (c3s.fire (5 : Nat)).1.connection_count = 1
    ∧ ¬((c3s.fire (5 : Nat)).1.connection_count + 1 = c3s.connection_count)
    ∧ ((fireSeq c3s [(5 : Nat), 6, 7]).2.countP (fun e => e.idx == 2) = 0)
    ∧ ((c3s.suspend.fire (5 : Nat)).2 = []
        ∧ (c3s.suspend.fire (5 : Nat)).1.connections.get? 0 =
            some ⟨true, true, some 10, 0⟩) := by
  decide

/-- The invariant C8 asserts: every connected slot stores a non-null
callback pointer. -/
def goodSig {Cb : Type} (s : signal Cb) : Prop :=
  ∀ c ∈ s.connections, c.connected = true → c.callback.isSome = true

/-- A reachable state refuting C8 as stated: connect on a fresh signal
with a null callback pointer yields a connected slot whose callback is
null. -/
def c8s : signal Nat × Option Nat :=
  (signal.init (List.replicate 128 (⟨false, false, none, 0⟩ : connection Nat))).connect
    none 7

theorem c8_cex :
    c8s.2 = some 0
    ∧ c8s.1.connections.get? 0 = some ⟨true, false, none, 7⟩
    ∧ ¬goodSig c8s.1 := by
  refine ⟨by decide, by decide, ?_⟩
  intro h
  have := h ⟨true, false, none, 7⟩ (by decide) rfl
  cases this

theorem connectSlots_mem {Cb : Type} {f : Option Cb} {x : Nat} {o : Bool} :
    ∀ {l : List (connection Cb)} {d : connection Cb},
      d ∈ (connectSlots f x o l).1 →
      d ∈ l ∨ d = { connected := true, once := o, callback := f, context := x } := by
  intro l
  induction l with
  | nil => intro d hd; cases hd
  | cons c rest ih =>
    intro d hd
    cases hc : c.connected with
    | true =>
      rw [connectSlots, hc] at hd
      simp only [if_true] at hd
      rcases List.mem_cons.mp hd with h | h
      · exact Or.inl (h ▸ List.mem_cons_self c rest)
      · rcases ih h with h' | h'
        · exact Or.inl (List.mem_cons_of_mem c h')
        · exact Or.inr h'
    | false =>
      rw [connectSlots, hc] at hd
      simp only [Bool.false_eq_true, if_false] at hd
      rcases List.mem_cons.mp hd with h | h
      · exact Or.inr h
      · exact Or.inl (List.mem_cons_of_mem c h)

theorem updateAt_mem {α : Type} (g : α → α) :
    ∀ {l : List α} {i : Nat} {d : α},
      d ∈ updateAt i g l → d ∈ l ∨ ∃ c ∈ l, d = g c := by
  intro l
  induction l with
  | nil => intro i d hd; cases i <;> cases hd
  | cons c rest ih =>
    intro i d hd
    cases i with
    | zero =>
      rcases List.mem_cons.mp hd with h | h
      · exact Or.inr ⟨c, List.mem_cons_self c rest, h⟩
      · exact Or.inl (List.mem_cons_of_mem c h)
    | succ i' =>
      rcases List.mem_cons.mp hd with h | h
      · exact Or.inl (h ▸ List.mem_cons_self c rest)
      · rcases ih h with h' | ⟨e, he, hde⟩
        · exact Or.inl (List.mem_cons_of_mem c h')
        · exact Or.inr ⟨e, List.mem_cons_of_mem c he, hde⟩

theorem goodSig_of_steps {Cb : Type} {act : Bool} {l : List (connection Cb)}
    (h : goodSig ⟨act, l⟩) (g : connection Cb → connection Cb)
    (hg : ∀ c, g c = c ∨ g c = c.disconnect) (act' : Bool) :
    goodSig ⟨act', l.map g⟩ := by
  intro d hd hdc
  obtain ⟨c, hc, hgc⟩ := List.mem_map.mp hd
  rcases hg c with h' | h'
  · rw [h'] at hgc
    rw [← hgc] at hdc ⊢
    exact h c hc hdc
  · rw [h'] at hgc
    rw [← hgc] at hdc
    cases hdc

theorem fireStep_cases {Cb : Type} (c : connection Cb) :
    fireStep c = c ∨ fireStep c = c.disconnect := by
  rw [fireStep]
  by_cases h : (c.connected && c.callback.isSome && c.once) = true
  · rw [if_pos h]; exact Or.inr rfl
  · rw [if_neg h]; exact Or.inl rfl

/-- C8 (amended): connect and once store exactly the callback pointer the
caller passes; the connected-implies-non-null-callback invariant holds on
a freshly constructed signal and is preserved by every operation whenever
the slot-allocating calls are only made with non-null callbacks — a null
callback argument, however, is accepted and produces a connected slot with
a null callback pointer (refuting the unconditional invariant; fire skips
such slots). -/
theorem c8_nonnull_invariant {Cb Args : Type} [DecidableEq Cb]
    (g : List (connection Cb)) (s : signal Cb) (f : Cb) (fo : Option Cb)
    (x i : Nat) (a : Args) :
    goodSig (signal.init g)
    ∧ (goodSig s → goodSig (s.connect (some f) x).1)
    ∧ (goodSig s → goodSig (s.once (some f) x).1)
    ∧ (goodSig s → goodSig (s.fire a).1)
    ∧ (goodSig s → goodSig s.suspend)
    ∧ (goodSig s → goodSig s.resume)
    ∧ (goodSig s → goodSig s.disconnect_all)
    ∧ (goodSig s → goodSig (s.disconnect_by_callback fo))
    ∧ (goodSig s → goodSig (s.disconnect_by_context x))
    ∧ (goodSig s → goodSig (s.disconnectAt i)) := by
  obtain ⟨act, conns⟩ := s
  refine ⟨?_, ?_, ?_, ?_, ?_, ?_, ?_, ?_, ?_, ?_⟩
  · intro c hc hcon
    obtain ⟨d, _, hd⟩ := List.mem_map.mp hc
    rw [← hd] at hcon
    cases hcon
  · intro h d hd hdc
    rcases connectSlots_mem hd with h' | h'
    · exact h d h' hdc
    · rw [h']
      rfl
  · intro h d hd hdc
    rcases connectSlots_mem hd with h' | h'
    · exact h d h' hdc
    · rw [h']
      rfl
  · intro h
    rw [fire_fst]
    by_cases hact : (signal.mk act conns).active = true
    · rw [if_pos hact]
      exact goodSig_of_steps h fireStep fireStep_cases act
    · rw [if_neg hact]
      exact h
  · intro h
    exact h
  · intro h
    exact h
  · intro h
    exact goodSig_of_steps h _ (fun c => by
      by_cases hc : c.connected = true
      · rw [if_pos hc]; exact Or.inr rfl
      · rw [if_neg hc]; exact Or.inl rfl) act
  · intro h
    exact goodSig_of_steps h _ (fun c => by
      by_cases hc : c.connected = true ∧ c.callback = fo
      · rw [if_pos hc]; exact Or.inr rfl
      · rw [if_neg hc]; exact Or.inl rfl) act
  · intro h
    exact goodSig_of_steps h _ (fun c => by
      by_cases hc : c.connected = true ∧ c.context = x
      · rw [if_pos hc]; exact Or.inr rfl
      · rw [if_neg hc]; exact Or.inl rfl) act
  · intro h d hd hdc
    rcases updateAt_mem connection.disconnect hd with h' | ⟨e, he, hde⟩
    · exact h d h' hdc
    · rw [hde] at hdc
      cases hdc

theorem c8_amended_witness :
    goodSig ((⟨true, [⟨false, false, none, 3⟩]⟩ : signal Nat).connect (some 4) 5).1 :=
  (c8_nonnull_invariant [] (⟨true, [⟨false, false, none, 3⟩]⟩ : signal Nat)
    4 none 5 0 (2 : Nat)).2.1 (by intro c hc hcon; simp at hc; rw [hc] at hcon; cases hcon)

/-- Callback pointers for a source signal that may carry the forward_to
adapter: either an ordinary user callback (identified by its address) or
the adapter lambda registered by forward_to. -/
inductive acb where
  | user (k : Nat)
  | fwd
deriving DecidableEq

/-- An invocation in the two-signal forwarding world: either a callback of
the source signal A (including the adapter itself) or a callback of the
target signal B, invoked from inside the adapter's nested B.fire. -/
inductive fwdEvent (Args : Type) where
  | aev (e : event acb Args)
  | bev (e : event Nat Args)
deriving DecidableEq

/-- Re-index the A-side events of a trace by +1; B-side events keep the
B slot index they carry. -/
def bumpF {Args : Type} : fwdEvent Args → fwdEvent Args
  | .aev e => .aev { e with idx := e.idx + 1 }
  | .bev e => .bev e

/-- The B-side invocations of a forwarding-world trace, in order. -/
def bevs {Args : Type} : List (fwdEvent Args) → List (event Nat Args)
  | [] => []
  | .aev _ :: t => bevs t
  | .bev e :: t => e :: bevs t

/-- signal::forward_to — registers the adapter lambda via connect, with
the target signal's address as context. -/
def signal.forward_to (A : signal acb) (addr : Nat) : signal acb × Option Nat :=
  A.connect (some acb.fwd) addr

/-- The fire loop of the source signal A in a world with one target
signal B living at address addr: a dispatched adapter slot whose context
is addr runs B.fire with the same arguments before the scan continues (the
model interprets only the address addr, i.e. a one-target world; an
adapter stored with any other context has no modelled target, so the model
records its invocation and no nested fire). -/
def fireFwdSlots {Args : Type} (addr : Nat) (x : Args) :
    List (connection acb) → signal Nat →
      List (connection acb) × signal Nat × List (fwdEvent Args)
  | [], B => ([], B, [])
  | c :: rest, B =>
    if c.connected then
      match c.callback with
      | some (acb.user k) =>
        let r := fireFwdSlots addr x rest B
        ((if c.once then c.disconnect else c) :: r.1, r.2.1,
          .aev ⟨0, .user k, c.context, x⟩ :: r.2.2.map bumpF)
      | some acb.fwd =>
        if c.context = addr then
          let rb := B.fire x
          let r := fireFwdSlots addr x rest rb.1
          ((if c.once then c.disconnect else c) :: r.1, r.2.1,
            .aev ⟨0, .fwd, c.context, x⟩ :: (rb.2.map .bev ++ r.2.2.map bumpF))
        else
          let r := fireFwdSlots addr x rest B
          ((if c.once then c.disconnect else c) :: r.1, r.2.1,
            .aev ⟨0, .fwd, c.context, x⟩ :: r.2.2.map bumpF)
      | none =>
        let r := fireFwdSlots addr x rest B
        (c :: r.1, r.2.1, r.2.2.map bumpF)
    else
      let r := fireFwdSlots addr x rest B
      (c :: r.1, r.2.1, r.2.2.map bumpF)

/-- A.fire in the forwarding world: if A is suspended nothing happens;
otherwise the slot scan runs, threading the target signal B through the
adapter dispatches. -/
def fireFwd {Args : Type} (addr : Nat) (x : Args) (A : signal acb)
    (B : signal Nat) : signal acb × signal Nat × List (fwdEvent Args) :=
  if A.active then
    let r := fireFwdSlots addr x A.connections B
    ({ A with connections := r.1 }, r.2.1, r.2.2)
  else
    (A, B, [])

/-- A slot holding a live forward_to adapter. -/
def fwdLive (c : connection acb) : Bool :=
  c.connected && decide (c.callback = some acb.fwd)

theorem bevs_map_bumpF {Args : Type} :
    ∀ t : List (fwdEvent Args), bevs (t.map bumpF) = bevs t := by
  intro t
  induction t with
  | nil => rfl
  | cons e t ih =>
    cases e with
    | aev e => simp [bumpF, bevs, ih]
    | bev e => simp [bumpF, bevs, ih]

theorem bevs_append {Args : Type} :
    ∀ t₁ t₂ : List (fwdEvent Args), bevs (t₁ ++ t₂) = bevs t₁ ++ bevs t₂ := by
  intro t₁ t₂
  induction t₁ with
  | nil => rfl
  | cons e t ih =>
    cases e with
    | aev e => simp [bevs, ih]
    | bev e => simp [bevs, ih]

theorem bevs_map_bev {Args : Type} :
    ∀ t : List (event Nat Args), bevs (t.map fwdEvent.bev) = t := by
  intro t
  induction t with
  | nil => rfl
  | cons e t ih => simp [bevs, ih]

theorem fireFwdSlots_noFwd {Args : Type} (addr : Nat) (x : Args) :
    ∀ (l : List (connection acb)) (B : signal Nat),
      l.countP fwdLive = 0 →
      (fireFwdSlots addr x l B).2.1 = B
      ∧ bevs (fireFwdSlots addr x l B).2.2 = [] := by
  intro l
  induction l with
  | nil => intro B _; exact ⟨rfl, rfl⟩
  | cons c rest ih =>
    intro B h
    rw [List.countP_cons] at h
    have hrest : rest.countP fwdLive = 0 := by omega
    have hcf : fwdLive c = false := by
      cases hh : fwdLive c
      · rfl
      · rw [hh] at h; simp at h
    cases hc : c.connected with
    | false =>
      rw [fireFwdSlots, hc]
      simp only [Bool.false_eq_true, if_false]
      obtain ⟨h1, h2⟩ := ih B hrest
      exact ⟨h1, by simpa [bevs, bevs_map_bumpF] using h2⟩
    | true =>
      cases hcb : c.callback with
      | none =>
        rw [fireFwdSlots, hc]
        simp only [if_true, hcb]
        obtain ⟨h1, h2⟩ := ih B hrest
        exact ⟨h1, by simpa [bevs, bevs_map_bumpF] using h2⟩
      | some g =>
        cases g with
        | user k =>
          rw [fireFwdSlots, hc]
          simp only [if_true, hcb]
          obtain ⟨h1, h2⟩ := ih B hrest
          exact ⟨h1, by simpa [bevs, bevs_map_bumpF] using h2⟩
        | fwd =>
          rw [fwdLive, hc, hcb] at hcf
          simp at hcf

theorem fireFwdSlots_oneFwd {Args : Type} (addr : Nat) (x : Args) :
    ∀ (l : List (connection acb)) (B : signal Nat),
      l.countP fwdLive = 1 →
      (∀ c ∈ l, c.connected = true → c.callback = some acb.fwd →
        c.context = addr) →
      (fireFwdSlots addr x l B).2.1 = (B.fire x).1
      ∧ bevs (fireFwdSlots addr x l B).2.2 = (B.fire x).2 := by
  intro l
  induction l with
  | nil => intro B h; simp at h
  | cons c rest ih =>
    intro B h hctx
    rw [List.countP_cons] at h
    have hctxr : ∀ c ∈ rest, c.connected = true →
        c.callback = some acb.fwd → c.context = addr :=
      fun d hd => hctx d (List.mem_cons_of_mem c hd)
    cases hcf : fwdLive c with
    | true =>
      have hpair : c.connected = true ∧ c.callback = some acb.fwd := by
        simpa [fwdLive] using hcf
      have hc : c.connected = true := hpair.1
      have hcb : c.callback = some acb.fwd := hpair.2
      have hcx : c.context = addr := hctx c (List.mem_cons_self c rest) hc hcb
      have hrest : rest.countP fwdLive = 0 := by
        simp only [hcf, if_true] at h
        omega
      rw [fireFwdSlots, hc]
      simp only [if_true, hcb, hcx, if_pos rfl]
      obtain ⟨h1, h2⟩ := fireFwdSlots_noFwd addr x rest (B.fire x).1 hrest
      refine ⟨h1, ?_⟩
      simp only [bevs, bevs_append, bevs_map_bev, bevs_map_bumpF, h2]
      simp
    | false =>
      have hrest : rest.countP fwdLive = 1 := by
        simp only [hcf, Bool.false_eq_true, if_false] at h
        omega
      obtain ⟨h1, h2⟩ := ih B hrest hctxr
      cases hc : c.connected with
      | false =>
        rw [fireFwdSlots, hc]
        simp only [Bool.false_eq_true, if_false]
        exact ⟨h1, by simpa [bevs, bevs_map_bumpF] using h2⟩
      | true =>
        cases hcb : c.callback with
        | none =>
          rw [fireFwdSlots, hc]
          simp only [if_true, hcb]
          exact ⟨h1, by simpa [bevs, bevs_map_bumpF] using h2⟩
        | some g =>
          cases g with
          | user k =>
            rw [fireFwdSlots, hc]
            simp only [if_true, hcb]
            exact ⟨h1, by simpa [bevs, bevs_map_bumpF] using h2⟩
          | fwd =>
            rw [fwdLive, hc, hcb] at hcf
            simp at hcf

/-- C4: with A and B active and A holding exactly one live forward_to
adapter slot whose context is B's address, one fire of A with arguments x
invokes every connected B slot with a non-null callback exactly once,
passing its stored context and x, and leaves B exactly as one B.fire x
does; forward_to fails with an absent result precisely under connect's
capacity-exhaustion condition. -/
theorem c4_forwarding {Args : Type} (A : signal acb) (B : signal Nat)
    (addr : Nat) (x : Args) (f : Option acb) (y : Nat)
    (hAact : A.active = true) (hBact : B.active = true)
    (hone : A.connections.countP fwdLive = 1)
    (hctx : ∀ c ∈ A.connections, c.connected = true →
      c.callback = some acb.fwd → c.context = addr) :
    bevs (fireFwd addr x A B).2.2 =
      (withIdx 0 B.connections).filterMap (slotEvent x)
    ∧ (fireFwd addr x A B).2.1 = (B.fire x).1
    ∧ (∀ j c g, B.connections.get? j = some c → c.connected = true →
        c.callback = some g →
          (bevs (fireFwd addr x A B).2.2).countP (fun e => e.idx == j) = 1
          ∧ (⟨j, g, c.context, x⟩ : event Nat Args) ∈
              bevs (fireFwd addr x A B).2.2)
    ∧ ((A.forward_to addr).2 = none ↔ (A.connect f y).2 = none) := by
  have hred : fireFwd addr x A B =
      ({ A with connections := (fireFwdSlots addr x A.connections B).1 },
        (fireFwdSlots addr x A.connections B).2.1,
        (fireFwdSlots addr x A.connections B).2.2) := by
    simp [fireFwd, hAact]
  obtain ⟨h1, h2⟩ := fireFwdSlots_oneFwd addr x A.connections B hone hctx
  have htr : bevs (fireFwd addr x A B).2.2 = (B.fire x).2 := by
    rw [hred]
    exact h2
  have htr' : (B.fire x).2 = fireTrace x 0 B.connections := by
    rw [fire_snd, if_pos hBact]
  refine ⟨?_, ?_, ?_, ?_⟩
  · rw [htr, htr']
    exact fireTrace_eq_filterMap x 0 B.connections
  · rw [hred]
    exact h1
  · intro j c g hj hc hcb
    rw [htr, htr']
    constructor
    · have := fireTrace_countP_idx x B.connections 0 j
      simp only [Nat.zero_add] at this
      rw [this, hj]
      simp [hc, hcb]
    · have := mem_fireTrace_of_slot x hj hc hcb 0
      simpa using this
  · rw [signal.forward_to]
    show (connectSlots (some acb.fwd) addr false A.connections).2 = none ↔
      (connectSlots f y false A.connections).2 = none
    rw [connectSlots_none_iff, connectSlots_none_iff]

theorem c4_witness :
    bevs (fireFwd 0 (7 : Nat)
        (⟨true, [⟨true, false, some acb.fwd, 0⟩]⟩ : signal acb)
        (⟨true, [⟨true, false, some 5, 3⟩]⟩ : signal Nat)).2.2 =
      (withIdx 0 [(⟨true, false, some 5, 3⟩ : connection Nat)]).filterMap
        (slotEvent 7) :=
  (c4_forwarding (⟨true, [⟨true, false, some acb.fwd, 0⟩]⟩ : signal acb)
    (⟨true, [⟨true, false, some 5, 3⟩]⟩ : signal Nat) 0 (7 : Nat) none 0
    rfl rfl (by decide) (by decide)).1

end connections
